import Mathlib

/-!
Shallow embedding of trinity's file-descriptor provider subsystem
(`src/fds/fds.c`) and proofs about it.

Modelling conventions:
* A provider record keeps its `name`, `enabled` and `initialized` flags.
  The `open`/`get` function pointers are external capabilities; their
  results are supplied as oracles (`openRes`, `getRes`) indexed by the
  provider's position in the registration list.
* The random primitives `rnd()` and `RAND_BOOL()` are supplied as oracle
  streams (`Nat → Nat`, `Nat → Bool`) together with a counter of how many
  draws have been consumed.
* Loops with no iteration bound in the C source (`open_fds`'s while loop,
  `get_new_random_fd`'s retry loop, `get_random_fd`'s `regen` loop) are
  modelled with explicit fuel and return `none` when the fuel runs out.
* `exit(EXIT_FAILURE)` in the parameter processors is modelled by an
  explicit `exited` result carrying the exit code and the registry state
  at the moment of termination.
-/

namespace Fds

/-- One provider record, as copied into the registry by `add_to_prov_list`.
The `open`/`get` members are external capabilities and live outside the
record (their results are oracle parameters of the functions below). -/
structure fd_provider where
  name : String
  enabled : Bool
  initialized : Bool
  deriving Repr, DecidableEq

/-- The registry's global state: the ordered provider list and the four
counters `num_fd_providers`, `num_fd_providers_to_enable`,
`num_fd_providers_enabled`, `num_fd_providers_initialized`. -/
structure FdState where
  providers : List fd_provider
  num_fd_providers : Nat
  num_fd_providers_to_enable : Nat
  num_fd_providers_enabled : Nat
  num_fd_providers_initialized : Nat
  deriving Repr, DecidableEq

/-- The state of the C globals at program start (all zero, empty list). -/
def initialFdState : FdState :=
  { providers := []
  , num_fd_providers := 0
  , num_fd_providers_to_enable := 0
  , num_fd_providers_enabled := 0
  , num_fd_providers_initialized := 0 }

/-- Function `add_to_prov_list`: append a copy of the declared provider at the tail
of the list; `initialized` starts false (`zmalloc` zeroes the record and
the field is not copied); `num_fd_providers` is incremented. -/
def add_to_prov_list (name : String) (enabled : Bool) (st : FdState) : FdState :=
  { st with
    providers := st.providers ++ [{ name := name, enabled := enabled, initialized := false }]
    num_fd_providers := st.num_fd_providers + 1 }

/-- Function `setup_fd_providers`, generalized over the declared provider table:
register each `(name, default-enabled)` pair in order. -/
def setup_fd_providers (decls : List (String × Bool)) (st : FdState) : FdState :=
  decls.foldl (fun s d => add_to_prov_list d.1 d.2 s) st

/-- The shared-memory lease state mutated by `get_random_fd`. -/
structure ShmState where
  current_fd : Int
  fd_lifetime : Nat
  deriving Repr, DecidableEq

/-- Modelled from the spec: `RAND_RANGE(lo, hi)` (from trinity's random
header, not under `src/`) returns a uniformly random value in the
inclusive range `[lo, hi]`; we realize it as `lo + r % (hi - lo + 1)`
for one raw draw `r`, which covers exactly that range when `lo ≤ hi`. -/
def RAND_RANGE (lo hi r : Nat) : Nat := lo + r % (hi - lo + 1)

/-- Function `get_random_fd`: the sticky-lease selector.

Arguments: fuel for the unbounded `regen` loop; `max_children` (the
concurrency level); `newFd k` = value returned by the `k`-th call to
`get_new_random_fd`; `rr t` = the `t`-th raw draw used by `RAND_RANGE`;
`k`/`t` = how many of each have been consumed so far; the shared state.

Returns `some (fd, shm', k', t')` when the call terminates within fuel:
the returned descriptor, the updated shared state and oracle positions. -/
def get_random_fd : Nat → Nat → (Nat → Int) → (Nat → Nat) →
    Nat → Nat → ShmState → Option (Int × ShmState × Nat × Nat)
  | 0, _, _, _, _, _, _ => none
  | fuel + 1, mc, newFd, rr, k, t, shm =>
    if shm.fd_lifetime = 0 then
      -- regenerate: fresh fd from get_new_random_fd, fresh lifetime
      let shm' : ShmState :=
        { current_fd := newFd k
        , fd_lifetime :=
            if mc > 5 then RAND_RANGE 5 mc (rr t) else RAND_RANGE mc 5 (rr t) }
      if shm'.current_fd = 0 then
        get_random_fd fuel mc newFd rr (k + 1) (t + 1) { shm' with fd_lifetime := 0 }
      else
        some (shm'.current_fd, shm', k + 1, t + 1)
    else
      let shm' : ShmState := { shm with fd_lifetime := shm.fd_lifetime - 1 }
      if shm'.current_fd = 0 then
        get_random_fd fuel mc newFd rr k t { shm' with fd_lifetime := 0 }
      else
        some (shm'.current_fd, shm', k, t)

/-- Iterate `get_random_fd` for `n` consecutive calls (each with fuel
`fuel`), collecting the returned descriptors in order. -/
def get_random_fd_calls : Nat → Nat → Nat → (Nat → Int) → (Nat → Nat) →
    Nat → Nat → ShmState → Option (List Int × ShmState × Nat × Nat)
  | 0, _, _, _, _, k, t, shm => some ([], shm, k, t)
  | n + 1, fuel, mc, newFd, rr, k, t, shm =>
    match get_random_fd fuel mc newFd rr k t shm with
    | none => none
    | some (fd, shm', k', t') =>
      match get_random_fd_calls n fuel mc newFd rr k' t' shm' with
      | none => none
      | some (fds, shm'', k'', t'') => some (fd :: fds, shm'', k'', t'')

/-- The unbounded retry loop of `get_new_random_fd` (`while (fd < 0)` plus
the `retry:` label): draw `i = rnd() % num_fd_providers`, walk to the
`i`-th provider, retry on a disabled or uninitialized provider, otherwise
call its `get()`; a negative descriptor re-enters the outer loop.

`c` counts `rnd()` draws consumed so far; `tr` records the indices of the
providers on which `get()` has been called. Returns
`some (fd, draws-consumed, get-call-trace)` on termination within fuel. -/
def get_new_random_fd_loop (rnds : Nat → Nat) (getRes : Nat → Int) (st : FdState) :
    Nat → Nat → List Nat → Option (Int × Nat × List Nat)
  | 0, _, _ => none
  | fuel + 1, c, tr =>
    let i := rnds c % st.num_fd_providers
    match st.providers.get? i with
    | some p =>
      if p.enabled = false then
        get_new_random_fd_loop rnds getRes st fuel (c + 1) tr
      else if p.initialized = false then
        get_new_random_fd_loop rnds getRes st fuel (c + 1) tr
      else
        let fd := getRes i
        if fd < 0 then get_new_random_fd_loop rnds getRes st fuel (c + 1) (tr ++ [i])
        else some (fd, c + 1, tr ++ [i])
    | none => get_new_random_fd_loop rnds getRes st fuel (c + 1) tr

/-- Function `get_new_random_fd`: the fresh selector. Short-circuits to the `-1`
sentinel when `num_fd_providers_enabled` or `num_fd_providers_initialized`
is zero (consuming no random draw and calling no provider), otherwise runs
the retry loop. `getRes i` is the descriptor `provider_i->get()` returns. -/
def get_new_random_fd (fuel : Nat) (rnds : Nat → Nat) (getRes : Nat → Int)
    (st : FdState) : Option (Int × Nat × List Nat) :=
  if st.num_fd_providers_enabled = 0 then some (-1, 0, [])
  else if st.num_fd_providers_initialized = 0 then some (-1, 0, [])
  else get_new_random_fd_loop rnds getRes st fuel 0 []

/-- Result of one list pass of `__open_fds`: the updated provider list, the
number of successful `open()` calls (each increments both
`num_fd_providers_initialized` and `num_fd_providers_enabled`), the next
unused `RAND_BOOL` index, and the absolute indices of the providers on
which `open()` was called during this pass. -/
structure PassOut where
  provs : List fd_provider
  succ : Nat
  next : Nat
  opened : List Nat
  deriving Repr, DecidableEq

/-- The `list_for_each` body of `__open_fds` over the tail of the provider
list starting at absolute index `idx`, with `c` the next `RAND_BOOL` draw:
skip disabled, skip already-initialized, in the randomized pass skip on a
true coin; otherwise `enabled = open()` and on success mark initialized. -/
def openPass (doRand : Bool) (coin : Nat → Bool) (openRes : Nat → Bool) :
    Nat → Nat → List fd_provider → PassOut
  | _, c, [] => ⟨[], 0, c, []⟩
  | idx, c, p :: rest =>
    if p.enabled = false then
      let r := openPass doRand coin openRes (idx + 1) c rest
      ⟨p :: r.provs, r.succ, r.next, r.opened⟩
    else if p.initialized = true then
      let r := openPass doRand coin openRes (idx + 1) c rest
      ⟨p :: r.provs, r.succ, r.next, r.opened⟩
    else if doRand && coin c then
      -- RAND_BOOL() said to skip this provider in this pass
      let r := openPass doRand coin openRes (idx + 1) (c + 1) rest
      ⟨p :: r.provs, r.succ, r.next, r.opened⟩
    else
      let c1 := if doRand then c + 1 else c
      let en := openRes idx
      let p' : fd_provider :=
        if en then { p with enabled := true, initialized := true }
        else { p with enabled := false }
      let r := openPass doRand coin openRes (idx + 1) c1 rest
      ⟨p' :: r.provs, (if en then 1 else 0) + r.succ, r.next, idx :: r.opened⟩

/-- Function `__open_fds`: one pass over the whole provider list; the counters
`num_fd_providers_initialized` and `num_fd_providers_enabled` are both
incremented once per successful `open()`. Returns the updated state, the
next unused coin index and the pass's `open()`-call trace. -/
def __open_fds (doRand : Bool) (coin : Nat → Bool) (openRes : Nat → Bool)
    (c : Nat) (st : FdState) : FdState × Nat × List Nat :=
  let r := openPass doRand coin openRes 0 c st.providers
  ( { st with
      providers := r.provs
      num_fd_providers_initialized := st.num_fd_providers_initialized + r.succ
      num_fd_providers_enabled := st.num_fd_providers_enabled + r.succ }
  , r.next, r.opened )

/-- The `while (num_fd_providers_initialized < num_fd_providers_to_enable / 2)`
loop of `open_fds`: each iteration is a randomized pass. Fuel bounds the
number of iterations; `none` means the loop had not terminated. -/
def open_fds_loop (coin : Nat → Bool) (openRes : Nat → Bool) :
    Nat → Nat → FdState → List Nat → Option (FdState × Nat × List Nat)
  | 0, c, st, tr =>
    if st.num_fd_providers_initialized < st.num_fd_providers_to_enable / 2 then
      none
    else some (st, c, tr)
  | fuel + 1, c, st, tr =>
    if st.num_fd_providers_initialized < st.num_fd_providers_to_enable / 2 then
      let r := __open_fds true coin openRes c st
      open_fds_loop coin openRes fuel r.2.1 r.1 (tr ++ r.2.2)
    else some (st, c, tr)

/-- Function `open_fds`: the randomized phase until half the requested target is
initialized, then one exhaustive pass. Returns the final state and the
concatenated trace of all `open()` calls. -/
def open_fds (fuel : Nat) (coin : Nat → Bool) (openRes : Nat → Bool)
    (st : FdState) : Option (FdState × List Nat) :=
  match open_fds_loop coin openRes fuel 0 st [] with
  | none => none
  | some (st1, c, tr) =>
    let r := __open_fds false coin openRes c st1
    some (r.1, tr ++ r.2.2)

/-- Result of a parameter-processing function: either a normal return with
the updated registry, or process termination (`exit`) with the exit code
and the registry state at the moment of exit. -/
inductive ParamResult where
  | ok : FdState → ParamResult
  | exited : Nat → FdState → ParamResult
  deriving Repr, DecidableEq

/-- The list walk inside `enable_fds_param`/`disable_fds_param`: set the
`enabled` flag of the first provider whose name matches, or report that
none matched. -/
def setEnabledFirst (v : Bool) (s : String) : List fd_provider → Option (List fd_provider)
  | [] => none
  | p :: rest =>
    if p.name = s then some ({ p with enabled := v } :: rest)
    else (setEnabledFirst v s rest).map (p :: ·)

/-- Function `enable_fds_param`: enable the named provider and count it in
`num_fd_providers_to_enable`; unknown name prints usage and exits with
`EXIT_FAILURE` (= 1). -/
def enable_fds_param (s : String) (st : FdState) : ParamResult :=
  match setEnabledFirst true s st.providers with
  | some ps =>
    ParamResult.ok
      { st with
        providers := ps
        num_fd_providers_to_enable := st.num_fd_providers_to_enable + 1 }
  | none => ParamResult.exited 1 st

/-- Function `disable_fds_param`: disable the named provider; unknown name prints
usage and exits with `EXIT_FAILURE` (= 1). -/
def disable_fds_param (s : String) (st : FdState) : ParamResult :=
  match setEnabledFirst false s st.providers with
  | some ps => ParamResult.ok { st with providers := ps }
  | none => ParamResult.exited 1 st

/-- The NUL byte the scan writes over each comma it finds. -/
def NUL : Char := Char.ofNat 0

/-- Read the duplicated parameter buffer the way `str[i]` does once `str`
has been advanced: position `a` holds the `a`-th copied character for
`a < len`, the terminating NUL at `a = len`, and — for `a > len`, which
the C reads out of bounds past the terminator — a byte modelled as
not-a-comma (the program's behavior whenever the adjacent heap bytes
contain no comma byte; a comma byte there would make the program corrupt
the heap). -/
def bufGet (buf : List Char) (a : Nat) : Char := buf.getD a NUL

/-- The C string starting at offset `off` of the buffer: the characters up
to the first NUL — a comma position already overwritten, or the
terminator at the end of the buffer. -/
def cTok (buf : List Char) (off : Nat) : String :=
  String.mk ((buf.drop off).takeWhile (fun ch => ch != NUL))

/-- The comma scan of `process_fds_param`, faithfully: the loop index `i`
runs from `0` to `len - 1` testing `str[i]` — absolute buffer position
`off + i` — and each comma found there is overwritten with NUL, the C
string at `off` processed as a token, and `str` reassigned to
`str_orig + i + 1` (absolute offset `i + 1`, not the position after the
comma, while `i` keeps running). Later commas can therefore be missed —
merging tokens — and a token can be cut short at a NUL written for an
earlier comma, yielding a spurious suffix token. `n` counts the remaining
loop iterations (initially `len`). Returns the tokens processed at
commas, in order, with the final buffer and the final offset of `str`. -/
def scanCommas : Nat → List Char → Nat → Nat → List String × List Char × Nat
  | 0, buf, _, off => ([], buf, off)
  | n + 1, buf, i, off =>
    if bufGet buf (off + i) = ',' then
      let buf' := buf.set (off + i) NUL
      let r := scanCommas n buf' (i + 1) (i + 1)
      (cTok buf' off :: r.1, r.2)
    else
      scanCommas n buf (i + 1) off

/-- The token sequence `process_fds_param` actually feeds to
`enable_fds_param`/`disable_fds_param`, in order: the tokens processed at
each comma the scan finds, then — when the final `str` still points
strictly inside the original `len` characters (`str < str_orig + len`) —
the C string at the final offset. For parameters with at most one comma
this coincides with a clean comma split; with two or more commas it does
not (see `scanCommas`). -/
def fdsTokens (param : String) : List String :=
  let r := scanCommas param.length param.data 0 0
  if r.2.2 < param.length then r.1 ++ [cTok r.2.1 r.2.2] else r.1

/-- Following the spec's words — "Split `paramText` on commas into an
ordered sequence of tokens (no trimming beyond the split; empty trailing
token is ignored)" — the clean comma split, defined only to compare the
spec's intended tokenization with the one the code performs. `acc` holds
the current segment. -/
def specSplitAux : List Char → List Char → List String
  | acc, [] => if acc.isEmpty then [] else [String.mk acc]
  | acc, c :: rest =>
    if c = ',' then String.mk acc :: specSplitAux [] rest
    else specSplitAux (acc ++ [c]) rest

/-- Following the spec's words: the clean comma split of a parameter
string, with an empty trailing token ignored. -/
def specSplit (param : String) : List String :=
  specSplitAux [] param.data

/-- Apply `enable_fds_param` / `disable_fds_param` to each token in order,
stopping at the first `exit`. -/
def applyTokens (enable : Bool) : List String → FdState → ParamResult
  | [], st => ParamResult.ok st
  | s :: rest, st =>
    match (if enable then enable_fds_param s st else disable_fds_param s st) with
    | ParamResult.ok st' => applyTokens enable rest st'
    | ParamResult.exited c st' => ParamResult.exited c st'

/-- Function `process_fds_param`: in enable mode first mark every provider disabled,
then process the comma-separated tokens in order. -/
def process_fds_param (param : String) (enable : Bool) (st : FdState) : ParamResult :=
  let st1 :=
    if enable then
      { st with providers := st.providers.map (fun p => { p with enabled := false }) }
    else st
  applyTokens enable (fdsTokens param) st1

/-! ## Lemmas and theorems -/

/-- The value `RAND_RANGE lo hi r` lies in the inclusive range `[lo, hi]` when
`lo ≤ hi`. -/
theorem RAND_RANGE_mem (lo hi r : Nat) (h : lo ≤ hi) :
    lo ≤ RAND_RANGE lo hi r ∧ RAND_RANGE lo hi r ≤ hi := by
  unfold RAND_RANGE
  have hlt : r % (hi - lo + 1) < hi - lo + 1 := Nat.mod_lt _ (Nat.succ_pos _)
  omega

/-- C1: a terminating call to `get_random_fd` never returns the value `0`:
when `current_fd` is `0` after the lease step, the lifetime is forced to
`0` and the state is resampled before returning. -/
theorem get_random_fd_ne_zero :
    ∀ (fuel mc : Nat) (newFd : Nat → Int) (rr : Nat → Nat) (k t : Nat)
      (shm : ShmState) (fd : Int) (out : ShmState × Nat × Nat),
      get_random_fd fuel mc newFd rr k t shm = some (fd, out) → fd ≠ 0
  | 0, _, _, _, _, _, _, _, _, h => by simp [get_random_fd] at h
  | fuel + 1, mc, newFd, rr, k, t, shm, fd, out, h => by
    simp only [get_random_fd] at h
    split_ifs at h
    all_goals first
      | exact get_random_fd_ne_zero fuel mc newFd rr _ _ _ fd out h
      | (simp only [Option.some.injEq, Prod.mk.injEq] at h
         rcases h with ⟨rfl, -⟩
         assumption)

/-- Witness for `get_random_fd_ne_zero` at a concrete input. -/
theorem get_random_fd_ne_zero_witness : (7 : Int) ≠ 0 :=
  get_random_fd_ne_zero 10 8 (fun _ => 7) (fun _ => 0) 0 0 ⟨5, 0⟩ 7
    (⟨7, 5⟩, 1, 1) (by decide)

/-- C7: whenever `get_random_fd` enters with `fd_lifetime = 0` (so the
lease is resampled) and terminates, the stored lifetime lies in the
inclusive range `[5, max_children]` when `max_children > 5`, and in
`[max_children, 5]` otherwise. -/
theorem get_random_fd_lifetime_range :
    ∀ (fuel mc : Nat) (newFd : Nat → Int) (rr : Nat → Nat) (k t : Nat)
      (shm : ShmState) (fd : Int) (shm' : ShmState) (k' t' : Nat),
      shm.fd_lifetime = 0 →
      get_random_fd fuel mc newFd rr k t shm = some (fd, shm', k', t') →
      (mc > 5 → 5 ≤ shm'.fd_lifetime ∧ shm'.fd_lifetime ≤ mc) ∧
      (mc ≤ 5 → mc ≤ shm'.fd_lifetime ∧ shm'.fd_lifetime ≤ 5)
  | 0, _, _, _, _, _, _, _, _, _, _, _, h => by simp [get_random_fd] at h
  | fuel + 1, mc, newFd, rr, k, t, shm, fd, shm', k', t', h0, h => by
    simp only [get_random_fd] at h
    rw [if_pos h0] at h
    split_ifs at h with h1
    all_goals first
      | exact get_random_fd_lifetime_range fuel mc newFd rr _ _ _ fd shm' k' t' rfl h
      | (simp only [Option.some.injEq, Prod.mk.injEq] at h
         rcases h with ⟨-, rfl, -, -⟩
         have h5 : rr t % (mc - 5 + 1) < mc - 5 + 1 := Nat.mod_lt _ (Nat.succ_pos _)
         have h6 : rr t % (5 - mc + 1) < 5 - mc + 1 := Nat.mod_lt _ (Nat.succ_pos _)
         dsimp only [RAND_RANGE]
         omega)

/-- Witness for `get_random_fd_lifetime_range` at a concrete input. -/
theorem get_random_fd_lifetime_range_witness :
    ((8 : Nat) > 5 → 5 ≤ (6 : Nat) ∧ (6 : Nat) ≤ 8) ∧
    ((8 : Nat) ≤ 5 → (8 : Nat) ≤ 6 ∧ (6 : Nat) ≤ 5) :=
  get_random_fd_lifetime_range 3 8 (fun _ => 7) (fun _ => 9) 0 0 ⟨5, 0⟩ 7
    ⟨7, 6⟩ 1 1 rfl (by decide)

/-- Helper for C6: with a nonzero leased `current_fd` and positive
per-call fuel, `n ≤ klife` consecutive calls each return `current_fd`
unchanged and decrement the lifetime by one per call. -/
theorem sticky_calls :
    ∀ (n f klife mc : Nat) (newFd : Nat → Int) (rr : Nat → Nat) (k t : Nat)
      (cfd : Int), cfd ≠ 0 → 0 < f → n ≤ klife →
      get_random_fd_calls n f mc newFd rr k t ⟨cfd, klife⟩ =
        some (List.replicate n cfd, ⟨cfd, klife - n⟩, k, t)
  | 0, f, klife, mc, newFd, rr, k, t, cfd, _, _, _ => by
    simp [get_random_fd_calls]
  | n + 1, f, klife, mc, newFd, rr, k, t, cfd, hcfd, hf, hn => by
    obtain ⟨f', rfl⟩ : ∃ f', f = f' + 1 := ⟨f - 1, by omega⟩
    have hl : ¬((⟨cfd, klife⟩ : ShmState).fd_lifetime = 0) := by
      dsimp only
      omega
    have hcall : get_random_fd (f' + 1) mc newFd rr k t ⟨cfd, klife⟩ =
        some (cfd, ⟨cfd, klife - 1⟩, k, t) := by
      simp only [get_random_fd]
      rw [if_neg hl, if_neg hcfd]
    have hrest := sticky_calls n (f' + 1) (klife - 1) mc newFd rr k t cfd hcfd
      (Nat.succ_pos _) (by omega)
    simp only [get_random_fd_calls, hcall, hrest, List.replicate_succ]
    have harith : klife - 1 - n = klife - (n + 1) := by omega
    rw [harith]

/-- C6: lease stickiness. If the shared lifetime is `klife` and the stored
`current_fd` is nonzero (true of any value a previous call returned, by
`get_random_fd_ne_zero`), the next `n ≤ klife` calls all return that same
`current_fd`, each decrementing the lifetime by one; and a call made once
the lifetime has reached `0` resamples `current_fd` from
`get_new_random_fd` (so it may differ). -/
theorem lease_stickiness (f klife mc : Nat) (newFd : Nat → Int)
    (rr : Nat → Nat) (k t : Nat) (cfd : Int) (hcfd : cfd ≠ 0) (hf : 0 < f) :
    (∀ n, n ≤ klife →
      get_random_fd_calls n f mc newFd rr k t ⟨cfd, klife⟩ =
        some (List.replicate n cfd, ⟨cfd, klife - n⟩, k, t)) ∧
    (newFd k ≠ 0 →
      ∃ l, get_random_fd f mc newFd rr k t ⟨cfd, 0⟩ =
        some (newFd k, ⟨newFd k, l⟩, k + 1, t + 1)) := by
  constructor
  · intro n hn
    exact sticky_calls n f klife mc newFd rr k t cfd hcfd hf hn
  · intro hnz
    obtain ⟨f', rfl⟩ : ∃ f', f = f' + 1 := ⟨f - 1, by omega⟩
    refine ⟨if mc > 5 then RAND_RANGE 5 mc (rr t) else RAND_RANGE mc 5 (rr t), ?_⟩
    simp only [get_random_fd]
    rw [if_pos trivial]
    split_ifs with h1 h2 <;> first
      | rfl
      | exact absurd h1 hnz

/-- Witness for `lease_stickiness` at a concrete input. -/
theorem lease_stickiness_witness :
    get_random_fd_calls 3 2 8 (fun _ => 9) (fun _ => 0) 0 0 ⟨4, 3⟩ =
      some ([4, 4, 4], ⟨4, 0⟩, 0, 0) ∧
    ∃ l, get_random_fd 2 8 (fun _ => 9) (fun _ => 0) 0 0 ⟨4, 0⟩ =
      some (9, ⟨9, l⟩, 1, 1) := by
  have h := lease_stickiness 2 3 8 (fun _ => 9) (fun _ => 0) 0 0 4
    (by decide) (by decide)
  exact ⟨h.1 3 (by decide), h.2 (by decide)⟩

/-- C10: `process_fds_param` on the empty string in enable mode disables
every provider, enables none, changes no counter, and returns normally. -/
theorem process_empty_enable (st : FdState) :
    process_fds_param "" true st =
      ParamResult.ok
        { st with providers := st.providers.map (fun p => { p with enabled := false }) } := by
  have ht : fdsTokens "" = [] := by decide
  simp [process_fds_param, ht, applyTokens]

/-- A name absent from the registry makes the lookup walk fail. -/
theorem setEnabledFirst_eq_none (v : Bool) (s : String) :
    ∀ ps : List fd_provider, s ∉ ps.map (·.name) → setEnabledFirst v s ps = none
  | [], _ => rfl
  | p :: rest, h => by
    simp only [List.map_cons, List.mem_cons, not_or] at h
    simp only [setEnabledFirst, if_neg (Ne.symm h.1),
      setEnabledFirst_eq_none v s rest h.2, Option.map_none']

/-- A present name makes the lookup walk succeed. -/
theorem setEnabledFirst_isSome (v : Bool) (s : String) :
    ∀ ps : List fd_provider, s ∈ ps.map (·.name) →
      ∃ ps', setEnabledFirst v s ps = some ps'
  | p :: rest, h => by
    by_cases h1 : p.name = s
    · refine ⟨{ p with enabled := v } :: rest, ?_⟩
      simp only [setEnabledFirst]
      rw [if_pos h1]
    · simp only [List.map_cons, List.mem_cons] at h
      obtain ⟨ps', hps'⟩ :=
        setEnabledFirst_isSome v s rest (h.resolve_left (fun hs => h1 hs.symm))
      exact ⟨p :: ps', by simp [setEnabledFirst, h1, hps']⟩

/-- The lookup walk only changes an `enabled` flag: names are untouched. -/
theorem setEnabledFirst_names (v : Bool) (s : String) :
    ∀ ps ps' : List fd_provider, setEnabledFirst v s ps = some ps' →
      ps'.map (·.name) = ps.map (·.name)
  | [], _, h => by simp [setEnabledFirst] at h
  | p :: rest, ps', h => by
    simp only [setEnabledFirst] at h
    split_ifs at h with h1
    · obtain rfl := Option.some.injEq _ _ ▸ h
      rfl
    · rcases hrest : setEnabledFirst v s rest with - | rest'
      · rw [hrest] at h
        simp at h
      · rw [hrest] at h
        simp only [Option.map_some', Option.some.injEq] at h
        subst h
        simp [setEnabledFirst_names v s rest rest' hrest]

/-- Setting a flag on providers whose name is not `s` is the identity. -/
theorem map_flag_id (v : Bool) (s : String) :
    ∀ ps : List fd_provider, s ∉ ps.map (·.name) →
      ps.map (fun p => if p.name = s then { p with enabled := v } else p) = ps
  | [], _ => rfl
  | p :: rest, h => by
    simp only [List.map_cons, List.mem_cons, not_or] at h
    simp only [List.map_cons, if_neg (Ne.symm h.1), map_flag_id v s rest h.2]

/-- With unique names, the lookup walk is pointwise flag assignment. -/
theorem setEnabledFirst_nodup (v : Bool) (s : String) :
    ∀ ps : List fd_provider, (ps.map (·.name)).Nodup → s ∈ ps.map (·.name) →
      setEnabledFirst v s ps =
        some (ps.map (fun p => if p.name = s then { p with enabled := v } else p))
  | p :: rest, hnd, hmem => by
    simp only [List.map_cons, List.nodup_cons] at hnd
    by_cases h1 : p.name = s
    · simp only [setEnabledFirst, if_pos h1, List.map_cons, if_pos h1,
        Option.some.injEq]
      rw [map_flag_id v s rest (h1 ▸ hnd.1)]
    · have hmem' : s ∈ rest.map (·.name) := by
        simp only [List.map_cons, List.mem_cons] at hmem
        exact hmem.resolve_left (fun hs => h1 hs.symm)
      simp [setEnabledFirst, h1, setEnabledFirst_nodup v s rest hnd.2 hmem']

/-- A pointwise flag update keeps the list of names. -/
theorem names_map_flag (f : fd_provider → fd_provider)
    (hf : ∀ p, (f p).name = p.name) (ps : List fd_provider) :
    (ps.map f).map (·.name) = ps.map (·.name) := by
  rw [List.map_map]
  exact List.map_congr_left (fun p _ => hf p)

/-- With unique names, `enable_fds_param` on a registered name enables
exactly that provider and bumps `num_fd_providers_to_enable`. -/
theorem enable_fds_param_known (s : String) (st : FdState)
    (hnd : (st.providers.map (·.name)).Nodup)
    (hs : s ∈ st.providers.map (·.name)) :
    enable_fds_param s st = ParamResult.ok
      { st with
        providers := st.providers.map
          (fun p => if p.name = s then { p with enabled := true } else p)
        num_fd_providers_to_enable := st.num_fd_providers_to_enable + 1 } := by
  have h := setEnabledFirst_nodup true s st.providers hnd hs
  simp [enable_fds_param, h]

/-- With unique names and all tokens registered, processing a token list in
enable mode enables exactly the named providers and counts each token. -/
theorem applyTokens_enable_known :
    ∀ (ts : List String) (st : FdState),
      (st.providers.map (·.name)).Nodup →
      (∀ s ∈ ts, s ∈ st.providers.map (·.name)) →
      applyTokens true ts st = ParamResult.ok
        { st with
          providers := st.providers.map
            (fun p => if p.name ∈ ts then { p with enabled := true } else p)
          num_fd_providers_to_enable := st.num_fd_providers_to_enable + ts.length }
  | [], st, _, _ => by
    simp [applyTokens]
  | s :: ts, st, hnd, hall => by
    have h1 := enable_fds_param_known s st hnd (hall s (List.mem_cons_self s ts))
    have hnames :
        ((st.providers.map
          (fun p => if p.name = s then { p with enabled := true } else p)).map (·.name)) =
          st.providers.map (·.name) :=
      names_map_flag _ (fun p => by by_cases h : p.name = s <;> simp [h]) _
    have h2 := applyTokens_enable_known ts
      { st with
        providers := st.providers.map
          (fun p => if p.name = s then { p with enabled := true } else p)
        num_fd_providers_to_enable := st.num_fd_providers_to_enable + 1 }
      (by simpa [hnames] using hnd)
      (fun x hx => by
        simp only [hnames]
        exact hall x (List.mem_cons_of_mem s hx))
    have hprov :
        (st.providers.map (fun p => if p.name = s then { p with enabled := true } else p)).map
            (fun p => if p.name ∈ ts then { p with enabled := true } else p) =
          st.providers.map (fun p => if p.name ∈ s :: ts then { p with enabled := true } else p) := by
      rw [List.map_map]
      refine List.map_congr_left (fun p _ => ?_)
      by_cases hps : p.name = s <;> by_cases hpt : p.name ∈ ts <;>
        simp [hps, hpt, Function.comp]
    have hnum : st.num_fd_providers_to_enable + 1 + ts.length =
        st.num_fd_providers_to_enable + (ts.length + 1) := by omega
    simp only [applyTokens, h1, eq_self_iff_true, if_true, h2, hprov,
      List.length_cons]
    rw [hnum]

/-- C3 (amended): with unique registered names and every token of the
token sequence the scan actually processes (`fdsTokens`, which can merge
or truncate tokens of parameters with two or more commas) naming a
registered provider, enable-mode processing first disables every
provider, then enables exactly the named ones, counting each token in
`num_fd_providers_to_enable`. For parameters with at most one comma —
such as the claim's `"B"` example — the processed sequence coincides with
the clean comma split. -/
theorem process_fds_param_enable_exclusive (param : String) (st : FdState)
    (hnd : (st.providers.map (·.name)).Nodup)
    (hall : ∀ s ∈ fdsTokens param, s ∈ st.providers.map (·.name)) :
    process_fds_param param true st = ParamResult.ok
      { st with
        providers := st.providers.map
          (fun p => { p with enabled := decide (p.name ∈ fdsTokens param) })
        num_fd_providers_to_enable :=
          st.num_fd_providers_to_enable + (fdsTokens param).length } := by
  unfold process_fds_param
  rw [if_pos rfl]
  have hnames :
      ((st.providers.map (fun p => { p with enabled := false })).map (·.name)) =
        st.providers.map (·.name) :=
    names_map_flag (fun p => { p with enabled := false }) (fun p => rfl) st.providers
  rw [applyTokens_enable_known (fdsTokens param)
    { st with providers := st.providers.map (fun p => { p with enabled := false }) }
    (by simpa [hnames] using hnd)
    (fun x hx => by
      simp only [hnames]
      exact hall x hx)]
  have hprov :
      (st.providers.map (fun p => { p with enabled := false })).map
          (fun p => if p.name ∈ fdsTokens param then { p with enabled := true } else p) =
        st.providers.map (fun p => { p with enabled := decide (p.name ∈ fdsTokens param) }) := by
    rw [List.map_map]
    refine List.map_congr_left (fun p _ => ?_)
    by_cases hpt : p.name ∈ fdsTokens param <;> simp [hpt, Function.comp]
  rw [hprov]

/-- Witness for `process_fds_param_enable_exclusive`: default-enabled
providers `A`, `B`, `C`; applying `"B"` leaves only `B` enabled. -/
theorem process_fds_param_enable_exclusive_witness :
    process_fds_param "B" true
      { providers := [⟨"A", true, false⟩, ⟨"B", true, false⟩, ⟨"C", true, false⟩]
      , num_fd_providers := 3, num_fd_providers_to_enable := 0
      , num_fd_providers_enabled := 0, num_fd_providers_initialized := 0 } =
    ParamResult.ok
      { providers := [⟨"A", false, false⟩, ⟨"B", true, false⟩, ⟨"C", false, false⟩]
      , num_fd_providers := 3, num_fd_providers_to_enable := 1
      , num_fd_providers_enabled := 0, num_fd_providers_initialized := 0 } := by
  have h := process_fds_param_enable_exclusive "B"
    { providers := [⟨"A", true, false⟩, ⟨"B", true, false⟩, ⟨"C", true, false⟩]
    , num_fd_providers := 3, num_fd_providers_to_enable := 0
    , num_fd_providers_enabled := 0, num_fd_providers_initialized := 0 }
    (by decide) (by decide)
  exact h

/-- C3 counterexample to the claim over the spec's clean comma split:
with default-enabled registered providers `A`, `B`, `C`, the clean split
of `"A,B,C"` is `["A", "B", "C"]` — every token a registered name — so the
claim requires a normal return with exactly those providers enabled. The
program instead processes `"A"`, misses the second comma (after the first
comma at index 1 the scan resumes at buffer offset 2 with the loop index
running on, so it reads positions 4, 5, ... and never position 3), hands
the merged token `"B,C"` to `enable_fds_param`, and exits with status 1,
with only `A` enabled. -/
theorem process_fds_param_enable_clean_split_false :
    specSplit "A,B,C" = ["A", "B", "C"] ∧
    process_fds_param "A,B,C" true
      { providers := [⟨"A", true, false⟩, ⟨"B", true, false⟩, ⟨"C", true, false⟩]
      , num_fd_providers := 3, num_fd_providers_to_enable := 0
      , num_fd_providers_enabled := 0, num_fd_providers_initialized := 0 } =
      ParamResult.exited 1
        { providers := [⟨"A", true, false⟩, ⟨"B", false, false⟩, ⟨"C", false, false⟩]
        , num_fd_providers := 3, num_fd_providers_to_enable := 1
        , num_fd_providers_enabled := 0, num_fd_providers_initialized := 0 } := by
  decide

/-- Tokens that all name registered providers are processed without exit,
in either mode, and leave the name list unchanged. -/
theorem applyTokens_known_ok (e : Bool) :
    ∀ (ts : List String) (st : FdState),
      (∀ s ∈ ts, s ∈ st.providers.map (·.name)) →
      ∃ st', applyTokens e ts st = ParamResult.ok st' ∧
        st'.providers.map (·.name) = st.providers.map (·.name)
  | [], st, _ => ⟨st, rfl, rfl⟩
  | s :: ts, st, hall => by
    have hs := hall s (List.mem_cons_self s ts)
    have hstep : ∃ st1,
        (if e then enable_fds_param s st else disable_fds_param s st) =
          ParamResult.ok st1 ∧
        st1.providers.map (·.name) = st.providers.map (·.name) := by
      cases e
      · obtain ⟨ps', hps'⟩ := setEnabledFirst_isSome false s st.providers hs
        exact ⟨{ st with providers := ps' }, by simp [disable_fds_param, hps'],
          setEnabledFirst_names false s st.providers ps' hps'⟩
      · obtain ⟨ps', hps'⟩ := setEnabledFirst_isSome true s st.providers hs
        refine ⟨{ st with
            providers := ps'
            num_fd_providers_to_enable := st.num_fd_providers_to_enable + 1 },
          by simp [enable_fds_param, hps'],
          setEnabledFirst_names true s st.providers ps' hps'⟩
    obtain ⟨st1, hok1, hn1⟩ := hstep
    obtain ⟨st', hok2, hn2⟩ := applyTokens_known_ok e ts st1
      (fun x hx => by
        rw [hn1]
        exact hall x (List.mem_cons_of_mem s hx))
    exact ⟨st', by simp only [applyTokens, hok1, hok2], hn2.trans hn1⟩

/-- A token naming no registered provider makes the per-token processor
exit with `EXIT_FAILURE` and the registry untouched, in either mode. -/
theorem param_step_unknown (e : Bool) (u : String) (st : FdState)
    (hu : u ∉ st.providers.map (·.name)) :
    (if e then enable_fds_param u st else disable_fds_param u st) =
      ParamResult.exited 1 st := by
  cases e <;>
    simp [enable_fds_param, disable_fds_param, setEnabledFirst_eq_none _ u _ hu]

/-- Token processing proceeds left to right across concatenation. -/
theorem applyTokens_append (e : Bool) :
    ∀ (ts1 ts2 : List String) (st st' : FdState),
      applyTokens e ts1 st = ParamResult.ok st' →
      applyTokens e (ts1 ++ ts2) st = applyTokens e ts2 st'
  | [], ts2, st, st', h => by
    simp only [applyTokens, ParamResult.ok.injEq] at h
    rw [List.nil_append, h]
  | s :: ts1, ts2, st, st', h => by
    rcases hstep : (if e then enable_fds_param s st else disable_fds_param s st)
      with st1 | ⟨c, st1⟩
    · simp only [applyTokens, hstep] at h
      simp only [List.cons_append, applyTokens, hstep]
      exact applyTokens_append e ts1 ts2 st1 st' h
    · simp only [applyTokens, hstep] at h
      exact absurd h (by simp)

/-- C4 (amended): a parameter whose actually-processed token sequence
(`fdsTokens` — the scan's sequence, which differs from the clean comma
split on parameters with two or more commas) contains a token naming no
registered provider, with all earlier processed tokens registered, makes
`process_fds_param` terminate the process with the non-zero status
`EXIT_FAILURE` (= 1), the registry mutated exactly by the tokens before
the unknown one (plus the initial disable-all sweep in enable mode). -/
theorem process_fds_param_unknown (param : String) (e : Bool) (st : FdState)
    (ts1 ts2 : List String) (u : String)
    (hsplit : fdsTokens param = ts1 ++ u :: ts2)
    (hknown : ∀ s ∈ ts1, s ∈ st.providers.map (·.name))
    (hunknown : u ∉ st.providers.map (·.name)) :
    ∃ st', applyTokens e ts1
        (if e then
          { st with providers := st.providers.map (fun p => { p with enabled := false }) }
        else st) = ParamResult.ok st' ∧
      process_fds_param param e st = ParamResult.exited 1 st' := by
  have hn1 : (if e then
        { st with providers := st.providers.map (fun p => { p with enabled := false }) }
      else st).providers.map (·.name) = st.providers.map (·.name) := by
    cases e
    · simp
    · simp
  obtain ⟨st', hok, hnames'⟩ := applyTokens_known_ok e ts1 _
    (fun x hx => by
      rw [hn1]
      exact hknown x hx)
  refine ⟨st', hok, ?_⟩
  simp only [process_fds_param]
  rw [hsplit, applyTokens_append e ts1 (u :: ts2) _ st' hok]
  simp only [applyTokens]
  rw [param_step_unknown e u st' (by
    rw [hnames', hn1]
    exact hunknown)]

/-- Witness for `process_fds_param_unknown`: providers `A`, `B`; the
parameter `"A,nope"` exits after processing only `"A"`. -/
theorem process_fds_param_unknown_witness :
    ∃ st', applyTokens true ["A"]
        (if true then
          { providers := [⟨"A", true, false⟩, ⟨"B", true, false⟩]
          , num_fd_providers := 2, num_fd_providers_to_enable := 0
          , num_fd_providers_enabled := 0, num_fd_providers_initialized := 0 : FdState }
            |> (fun s => { s with providers := s.providers.map (fun p => { p with enabled := false }) })
        else
          { providers := [⟨"A", true, false⟩, ⟨"B", true, false⟩]
          , num_fd_providers := 2, num_fd_providers_to_enable := 0
          , num_fd_providers_enabled := 0, num_fd_providers_initialized := 0 }) =
        ParamResult.ok st' ∧
      process_fds_param "A,nope" true
        { providers := [⟨"A", true, false⟩, ⟨"B", true, false⟩]
        , num_fd_providers := 2, num_fd_providers_to_enable := 0
        , num_fd_providers_enabled := 0, num_fd_providers_initialized := 0 } =
        ParamResult.exited 1 st' :=
  process_fds_param_unknown "A,nope" true
    { providers := [⟨"A", true, false⟩, ⟨"B", true, false⟩]
    , num_fd_providers := 2, num_fd_providers_to_enable := 0
    , num_fd_providers_enabled := 0, num_fd_providers_initialized := 0 }
    ["A"] [] "nope" (by decide) (by decide) (by decide)

/-- C4 counterexample to the claim over the spec's clean comma split:
registered providers `A`, `BB`, `B`; the clean split of `"A,BB,X"` is
`["A", "BB", "X"]`, whose token `"X"` names no registered provider, so the
claim requires the process to terminate with a non-zero status. The
program instead scans the skewed token sequence `["A", "BB", "B"]` (the
second comma is found at a shifted position and the final token is cut at
the NUL written for it), finds every one registered, mutates the registry
accordingly and returns normally — no exit at all. -/
theorem process_fds_param_unknown_clean_split_false :
    specSplit "A,BB,X" = ["A", "BB", "X"] ∧
    "X" ∉ ([⟨"A", true, false⟩, ⟨"BB", true, false⟩, ⟨"B", true, false⟩] :
      List fd_provider).map (·.name) ∧
    process_fds_param "A,BB,X" true
      { providers := [⟨"A", true, false⟩, ⟨"BB", true, false⟩, ⟨"B", true, false⟩]
      , num_fd_providers := 3, num_fd_providers_to_enable := 0
      , num_fd_providers_enabled := 0, num_fd_providers_initialized := 0 } =
      ParamResult.ok
        { providers := [⟨"A", true, false⟩, ⟨"BB", true, false⟩, ⟨"B", true, false⟩]
        , num_fd_providers := 3, num_fd_providers_to_enable := 3
        , num_fd_providers_enabled := 0, num_fd_providers_initialized := 0 } := by
  decide

/-- Helper for C2: any descriptor the retry loop returns came from a
`get()` call on a provider whose `enabled` and `initialized` flags were
both true at selection time. -/
theorem get_new_random_fd_loop_spec (rnds : Nat → Nat) (getRes : Nat → Int)
    (st : FdState) :
    ∀ (fuel c : Nat) (tr : List Nat) (fd : Int) (out : Nat × List Nat),
      get_new_random_fd_loop rnds getRes st fuel c tr = some (fd, out) →
      ∃ i p, st.providers.get? i = some p ∧ p.enabled = true ∧
        p.initialized = true ∧ fd = getRes i
  | 0, _, _, _, _, h => by simp [get_new_random_fd_loop] at h
  | fuel + 1, c, tr, fd, out, h => by
    simp only [get_new_random_fd_loop] at h
    split at h
    next p hget =>
      split_ifs at h with h1 h2 h3
      · exact get_new_random_fd_loop_spec rnds getRes st fuel _ _ fd out h
      · exact get_new_random_fd_loop_spec rnds getRes st fuel _ _ fd out h
      · exact get_new_random_fd_loop_spec rnds getRes st fuel _ _ fd out h
      · have he : p.enabled = true := by
          cases hb : p.enabled
          · exact absurd hb h1
          · rfl
        have hi : p.initialized = true := by
          cases hb : p.initialized
          · exact absurd hb h2
          · rfl
        simp only [Option.some.injEq, Prod.mk.injEq] at h
        exact ⟨rnds c % st.num_fd_providers, p, hget, he, hi, h.1.symm⟩
    next hget =>
      exact get_new_random_fd_loop_spec rnds getRes st fuel _ _ fd out h

/-- C2: the fresh selector returns the `-1` sentinel immediately — zero
random draws, zero `get()` calls — when the enabled count or initialized
count is zero; otherwise any terminating call's value was obtained from
`get()` on a provider whose `enabled` and `initialized` flags are both
true. -/
theorem get_new_random_fd_spec (fuel : Nat) (rnds : Nat → Nat)
    (getRes : Nat → Int) (st : FdState) :
    (st.num_fd_providers_enabled = 0 ∨ st.num_fd_providers_initialized = 0 →
      get_new_random_fd fuel rnds getRes st = some (-1, 0, [])) ∧
    (∀ fd c tr, get_new_random_fd fuel rnds getRes st = some (fd, c, tr) →
      st.num_fd_providers_enabled ≠ 0 → st.num_fd_providers_initialized ≠ 0 →
      ∃ i p, st.providers.get? i = some p ∧ p.enabled = true ∧
        p.initialized = true ∧ fd = getRes i) := by
  constructor
  · rintro (h | h)
    · simp [get_new_random_fd, h]
    · by_cases he : st.num_fd_providers_enabled = 0 <;>
        simp [get_new_random_fd, he, h]
  · intro fd c tr h h1 h2
    unfold get_new_random_fd at h
    rw [if_neg h1, if_neg h2] at h
    exact get_new_random_fd_loop_spec rnds getRes st fuel 0 [] fd (c, tr) h

/-- Witness for `get_new_random_fd_spec`: the sentinel path on a state
with nothing initialized, and the provider path on a one-provider state. -/
theorem get_new_random_fd_spec_witness :
    get_new_random_fd 5 (fun _ => 0) (fun _ => 7)
      { providers := [⟨"A", true, false⟩]
      , num_fd_providers := 1, num_fd_providers_to_enable := 0
      , num_fd_providers_enabled := 0, num_fd_providers_initialized := 0 } =
      some (-1, 0, []) ∧
    ∃ i p, ({ providers := [⟨"A", true, true⟩]
            , num_fd_providers := 1, num_fd_providers_to_enable := 0
            , num_fd_providers_enabled := 1
            , num_fd_providers_initialized := 1 : FdState }).providers.get? i =
        some p ∧ p.enabled = true ∧ p.initialized = true ∧
        (7 : Int) = (fun _ => (7 : Int)) i := by
  constructor
  · exact (get_new_random_fd_spec 5 (fun _ => 0) (fun _ => 7)
      { providers := [⟨"A", true, false⟩]
      , num_fd_providers := 1, num_fd_providers_to_enable := 0
      , num_fd_providers_enabled := 0, num_fd_providers_initialized := 0 }).1
      (Or.inl rfl)
  · exact (get_new_random_fd_spec 2 (fun _ => 0) (fun _ => 7)
      { providers := [⟨"A", true, true⟩]
      , num_fd_providers := 1, num_fd_providers_to_enable := 0
      , num_fd_providers_enabled := 1, num_fd_providers_initialized := 1 }).2
      7 1 [0] (by decide) (by decide) (by decide)

/-- A pass of `__open_fds` never changes the number of providers. -/
theorem openPass_length (d : Bool) (coin openRes : Nat → Bool) :
    ∀ (ps : List fd_provider) (idx c : Nat),
      (openPass d coin openRes idx c ps).provs.length = ps.length
  | [], _, _ => rfl
  | p :: rest, idx, c => by
    simp only [openPass]
    split_ifs <;> simp [openPass_length d coin openRes rest]

/-- A pass's successful-`open()` count is exactly the growth in the number
of initialized providers. -/
theorem openPass_countP (d : Bool) (coin openRes : Nat → Bool) :
    ∀ (ps : List fd_provider) (idx c : Nat),
      (openPass d coin openRes idx c ps).provs.countP (fun p => p.initialized) =
        ps.countP (fun p => p.initialized) + (openPass d coin openRes idx c ps).succ
  | [], _, _ => rfl
  | p :: rest, idx, c => by
    have ih := fun idx c => openPass_countP d coin openRes rest idx c
    cases hpi : p.initialized <;>
      by_cases h1 : p.enabled = false <;>
      by_cases h3 : (d && coin c) = true <;>
      cases hen : openRes idx <;>
      simp [openPass, hpi, h1, h3, hen, List.countP_cons, ih] <;>
      omega

/-- A pass preserves the property that every initialized provider is
enabled. -/
theorem openPass_flags (d : Bool) (coin openRes : Nat → Bool) :
    ∀ (ps : List fd_provider) (idx c : Nat),
      (∀ p ∈ ps, p.initialized = true → p.enabled = true) →
      ∀ q ∈ (openPass d coin openRes idx c ps).provs,
        q.initialized = true → q.enabled = true
  | [], _, _, _ => by simp [openPass]
  | p :: rest, idx, c, hps => by
    have hhd := hps p (List.mem_cons_self p rest)
    have htl := fun idx c => openPass_flags d coin openRes rest idx c
      (fun q hq => hps q (List.mem_cons_of_mem p hq))
    simp only [openPass]
    split_ifs with h1 h2 h3 h4 h5 <;>
      intro q hq <;>
      rcases List.mem_cons.mp hq with rfl | hq' <;>
      first
        | exact hhd
        | exact htl _ _ q hq'
        | (intro h
           exact absurd h h2)
        | (intro h
           rfl)

/-- The state invariant the initialization scheduler maintains: the
initialized counter counts initialized records, the enabled counter equals
it, the total counter is the list length, and initialized records are
enabled. -/
def InvOpen (st : FdState) : Prop :=
  st.num_fd_providers_initialized = st.providers.countP (fun p => p.initialized) ∧
  st.num_fd_providers_enabled = st.num_fd_providers_initialized ∧
  st.num_fd_providers = st.providers.length ∧
  ∀ p ∈ st.providers, p.initialized = true → p.enabled = true

/-- One `__open_fds` pass preserves the scheduler invariant. -/
theorem __open_fds_inv (d : Bool) (coin openRes : Nat → Bool) (c : Nat)
    (st : FdState) (h : InvOpen st) :
    InvOpen (__open_fds d coin openRes c st).1 := by
  obtain ⟨hc, he, hl, hf⟩ := h
  refine ⟨?_, ?_, ?_, ?_⟩
  · simp only [__open_fds, openPass_countP d coin openRes st.providers 0 c, hc]
  · simp only [__open_fds, he]
  · simp only [__open_fds, openPass_length d coin openRes st.providers 0 c, hl]
  · simp only [__open_fds]
    exact openPass_flags d coin openRes st.providers 0 c hf

/-- The randomized phase of `open_fds` preserves the scheduler invariant. -/
theorem open_fds_loop_inv (coin openRes : Nat → Bool) :
    ∀ (fuel c : Nat) (st : FdState) (tr : List Nat)
      (out : FdState × Nat × List Nat),
      InvOpen st → open_fds_loop coin openRes fuel c st tr = some out →
      InvOpen out.1
  | 0, c, st, tr, out, hinv, h => by
    simp only [open_fds_loop] at h
    by_cases h1 : st.num_fd_providers_initialized < st.num_fd_providers_to_enable / 2
    · rw [if_pos h1] at h
      cases h
    · rw [if_neg h1] at h
      obtain rfl := Option.some_injective _ h
      exact hinv
  | fuel + 1, c, st, tr, out, hinv, h => by
    simp only [open_fds_loop] at h
    by_cases h1 : st.num_fd_providers_initialized < st.num_fd_providers_to_enable / 2
    · rw [if_pos h1] at h
      exact open_fds_loop_inv coin openRes fuel _ _ _ out
        (__open_fds_inv true coin openRes c st hinv) h
    · rw [if_neg h1] at h
      obtain rfl := Option.some_injective _ h
      exact hinv

/-- C5: from a fresh state (no provider initialized, the initialized and
enabled counters zero, the total counter matching the list), a terminating
run of `open_fds` ends with
`initialized_count ≤ enabled_count ≤ total_count` and every initialized
provider enabled. -/
theorem open_fds_invariant (fuel : Nat) (coin openRes : Nat → Bool)
    (st : FdState)
    (hinit : ∀ p ∈ st.providers, p.initialized = false)
    (hcnt : st.num_fd_providers_initialized = 0)
    (hen : st.num_fd_providers_enabled = 0)
    (htot : st.num_fd_providers = st.providers.length) :
    ∀ st' tr, open_fds fuel coin openRes st = some (st', tr) →
      st'.num_fd_providers_initialized ≤ st'.num_fd_providers_enabled ∧
      st'.num_fd_providers_enabled ≤ st'.num_fd_providers ∧
      ∀ p ∈ st'.providers, p.initialized = true → p.enabled = true := by
  intro st' tr h
  have hinv0 : InvOpen st := by
    refine ⟨?_, by omega, htot, ?_⟩
    · rw [hcnt]
      symm
      rw [List.countP_eq_zero]
      intro p hp
      simp [hinit p hp]
    · intro p hp hpi
      rw [hinit p hp] at hpi
      cases hpi
  unfold open_fds at h
  rcases hloop : open_fds_loop coin openRes fuel 0 st [] with - | ⟨st1, c1, tr1⟩
  · rw [hloop] at h
    cases h
  · rw [hloop] at h
    simp only [Option.some.injEq, Prod.mk.injEq] at h
    have hinv1 : InvOpen st1 :=
      open_fds_loop_inv coin openRes fuel 0 st [] (st1, c1, tr1) hinv0 hloop
    have hinv2 : InvOpen (__open_fds false coin openRes c1 st1).1 :=
      __open_fds_inv false coin openRes c1 st1 hinv1
    rw [← h.1]
    obtain ⟨hc, he, hl, hf⟩ := hinv2
    refine ⟨by omega, ?_, hf⟩
    have hle : ((__open_fds false coin openRes c1 st1).1.providers.countP
        (fun p => p.initialized)) ≤
        (__open_fds false coin openRes c1 st1).1.providers.length :=
      List.countP_le_length _
    omega

/-- Witness for `open_fds_invariant` at a concrete input: two enabled
providers, every `open()` succeeding. -/
theorem open_fds_invariant_witness : (2 : Nat) ≤ 2 ∧ (2 : Nat) ≤ 2 := by
  have h := open_fds_invariant 1 (fun _ => false) (fun _ => true)
    { providers := [⟨"A", true, false⟩, ⟨"B", true, false⟩]
    , num_fd_providers := 2, num_fd_providers_to_enable := 0
    , num_fd_providers_enabled := 0, num_fd_providers_initialized := 0 }
    (by decide) rfl rfl rfl
    { providers := [⟨"A", true, true⟩, ⟨"B", true, true⟩]
    , num_fd_providers := 2, num_fd_providers_to_enable := 0
    , num_fd_providers_enabled := 2, num_fd_providers_initialized := 2 }
    [0, 1] (by decide)
  exact ⟨h.1, h.2.1⟩

/-- Provider `i` is settled: the record exists and is either initialized
(success already recorded) or disabled (failed or never-requested), so no
later pass calls its `open()` again. -/
def settled (ps : List fd_provider) (i : Nat) : Prop :=
  ∃ p, ps.get? i = some p ∧ (p.initialized = true ∨ p.enabled = false)

/-- The `open()`-call indices of one pass are at least the starting index
and strictly increasing (hence duplicate-free within the pass). -/
theorem openPass_opened_bounds (d : Bool) (coin openRes : Nat → Bool) :
    ∀ (ps : List fd_provider) (idx c : Nat),
      (∀ i ∈ (openPass d coin openRes idx c ps).opened, idx ≤ i) ∧
      (openPass d coin openRes idx c ps).opened.Pairwise (· < ·)
  | [], _, _ => by simp [openPass]
  | p :: rest, idx, c => by
    have ih := fun idx c => openPass_opened_bounds d coin openRes rest idx c
    simp only [openPass]
    split_ifs <;>
      first
        | exact ⟨fun i hi => Nat.le_of_succ_le ((ih _ _).1 i hi), (ih _ _).2⟩
        | (refine ⟨?_, List.pairwise_cons.mpr ⟨?_, (ih _ _).2⟩⟩
           · intro i hi
             rcases List.mem_cons.mp hi with rfl | hi'
             · exact Nat.le_refl i
             · exact Nat.le_of_succ_le ((ih _ _).1 i hi')
           · intro j hj
             exact Nat.lt_of_succ_le ((ih _ _).1 j hj))

/-- Every index a pass called `open()` on held, before the pass, a
provider that was enabled and not yet initialized. -/
theorem openPass_opened_src (d : Bool) (coin openRes : Nat → Bool) :
    ∀ (ps : List fd_provider) (idx c : Nat),
      ∀ i ∈ (openPass d coin openRes idx c ps).opened,
        ∃ p, ps.get? (i - idx) = some p ∧ p.enabled = true ∧
          p.initialized = false
  | [], _, _ => by simp [openPass]
  | p :: rest, idx, c => by
    have ih := fun idx c => openPass_opened_src d coin openRes rest idx c
    have ihb := fun idx c => (openPass_opened_bounds d coin openRes rest idx c).1
    have htail : ∀ (c' : Nat) (i : Nat),
        i ∈ (openPass d coin openRes (idx + 1) c' rest).opened →
        ∃ q, (p :: rest).get? (i - idx) = some q ∧ q.enabled = true ∧
          q.initialized = false := by
      intro c' i hi
      have hb : idx + 1 ≤ i := ihb (idx + 1) c' i hi
      obtain ⟨q, hq, hq1, hq2⟩ := ih (idx + 1) c' i hi
      refine ⟨q, ?_, hq1, hq2⟩
      have hsub : i - idx = (i - (idx + 1)) + 1 := by omega
      rw [hsub, List.get?_cons_succ]
      exact hq
    simp only [openPass]
    split_ifs with h1 h2 h3 h4 h5 <;>
      intro i hi <;>
      first
        | exact htail _ i hi
        | (rcases List.mem_cons.mp hi with rfl | hi'
           · refine ⟨p, ?_, ?_, ?_⟩
             · rw [Nat.sub_self]
               rfl
             · cases hb : p.enabled
               · exact absurd hb h1
               · rfl
             · cases hb : p.initialized
               · rfl
               · exact absurd hb h2
           · exact htail _ i hi')

/-- Every index a pass called `open()` on is settled after the pass. -/
theorem openPass_opened_settled (d : Bool) (coin openRes : Nat → Bool) :
    ∀ (ps : List fd_provider) (idx c : Nat),
      ∀ i ∈ (openPass d coin openRes idx c ps).opened,
        ∃ p', (openPass d coin openRes idx c ps).provs.get? (i - idx) = some p' ∧
          (p'.initialized = true ∨ p'.enabled = false)
  | [], _, _ => by simp [openPass]
  | p :: rest, idx, c => by
    have ih := fun idx c => openPass_opened_settled d coin openRes rest idx c
    have ihb := fun idx c => (openPass_opened_bounds d coin openRes rest idx c).1
    have htail : ∀ (c' : Nat) (q : fd_provider) (i : Nat),
        i ∈ (openPass d coin openRes (idx + 1) c' rest).opened →
        ∃ p', (q :: (openPass d coin openRes (idx + 1) c' rest).provs).get?
            (i - idx) = some p' ∧
          (p'.initialized = true ∨ p'.enabled = false) := by
      intro c' q i hi
      have hb : idx + 1 ≤ i := ihb (idx + 1) c' i hi
      obtain ⟨p', hp', hset⟩ := ih (idx + 1) c' i hi
      refine ⟨p', ?_, hset⟩
      have hsub : i - idx = (i - (idx + 1)) + 1 := by omega
      rw [hsub, List.get?_cons_succ]
      exact hp'
    simp only [openPass]
    split_ifs <;>
      intro i hi <;>
      first
        | exact htail _ _ i hi
        | (rcases List.mem_cons.mp hi with rfl | hi'
           · exact ⟨_, by rw [Nat.sub_self]; rfl, by simp⟩
           · exact htail _ _ i hi')

/-- A pass never unsettles a settled provider. -/
theorem openPass_settled_mono (d : Bool) (coin openRes : Nat → Bool) :
    ∀ (ps : List fd_provider) (idx c j : Nat) (p : fd_provider),
      ps.get? j = some p → (p.initialized = true ∨ p.enabled = false) →
      ∃ p', (openPass d coin openRes idx c ps).provs.get? j = some p' ∧
        (p'.initialized = true ∨ p'.enabled = false)
  | [], _, _, j, p, hj, _ => by simp at hj
  | q :: rest, idx, c, 0, p, hj, hset => by
    obtain rfl : q = p := by simpa using hj
    simp only [openPass]
    split_ifs <;>
      first
        | exact ⟨_, rfl, hset⟩
        | (exfalso
           rcases hset with hset | hset <;> simp_all)
  | q :: rest, idx, c, j + 1, p, hj, hset => by
    have ih := fun idx c =>
      openPass_settled_mono d coin openRes rest idx c j p
        (by simpa using hj) hset
    simp only [openPass]
    split_ifs <;>
      first
        | (obtain ⟨p', hp', hs'⟩ := ih (idx + 1) c
           exact ⟨p', by simpa using hp', hs'⟩)
        | (obtain ⟨p', hp', hs'⟩ := ih (idx + 1) (c + 1)
           exact ⟨p', by simpa using hp', hs'⟩)

/-- One `__open_fds` pass extends a valid `open()` trace: the pass's
indices are fresh (no provider is ever re-opened) and the whole trace is
settled afterwards. -/
theorem pass_once_step (d : Bool) (coin openRes : Nat → Bool) (c : Nat)
    (st : FdState) (tr : List Nat)
    (hnd : tr.Nodup) (hset : ∀ i ∈ tr, settled st.providers i) :
    (tr ++ (__open_fds d coin openRes c st).2.2).Nodup ∧
    ∀ i ∈ tr ++ (__open_fds d coin openRes c st).2.2,
      settled (__open_fds d coin openRes c st).1.providers i := by
  have hb := openPass_opened_bounds d coin openRes st.providers 0 c
  have hsrc := openPass_opened_src d coin openRes st.providers 0 c
  have hop := openPass_opened_settled d coin openRes st.providers 0 c
  constructor
  · rw [List.nodup_append]
    refine ⟨hnd, (hb.2).imp (fun h => Nat.ne_of_lt h), ?_⟩
    intro a ha ha'
    obtain ⟨p, hp, hps⟩ := hset a ha
    obtain ⟨q, hq, hq1, hq2⟩ := hsrc a ha'
    rw [Nat.sub_zero, hp] at hq
    obtain rfl := Option.some_injective _ hq
    rcases hps with hps | hps <;> simp_all
  · intro i hi
    rcases List.mem_append.mp hi with hi | hi
    · obtain ⟨p, hp, hps⟩ := hset i hi
      exact openPass_settled_mono d coin openRes st.providers 0 c i p hp hps
    · obtain ⟨p', hp', hs'⟩ := hop i hi
      rw [Nat.sub_zero] at hp'
      exact ⟨p', hp', hs'⟩

/-- The randomized phase extends a valid `open()` trace. -/
theorem open_fds_loop_once (coin openRes : Nat → Bool) :
    ∀ (fuel c : Nat) (st : FdState) (tr : List Nat)
      (out : FdState × Nat × List Nat),
      open_fds_loop coin openRes fuel c st tr = some out →
      tr.Nodup → (∀ i ∈ tr, settled st.providers i) →
      out.2.2.Nodup ∧ ∀ i ∈ out.2.2, settled out.1.providers i
  | 0, c, st, tr, out, h, hnd, hs => by
    simp only [open_fds_loop] at h
    by_cases h1 : st.num_fd_providers_initialized < st.num_fd_providers_to_enable / 2
    · rw [if_pos h1] at h
      cases h
    · rw [if_neg h1] at h
      obtain rfl := Option.some_injective _ h
      exact ⟨hnd, hs⟩
  | fuel + 1, c, st, tr, out, h, hnd, hs => by
    simp only [open_fds_loop] at h
    by_cases h1 : st.num_fd_providers_initialized < st.num_fd_providers_to_enable / 2
    · rw [if_pos h1] at h
      have hstep := pass_once_step true coin openRes c st tr hnd hs
      exact open_fds_loop_once coin openRes fuel _ _ _ out h hstep.1 hstep.2
    · rw [if_neg h1] at h
      obtain rfl := Option.some_injective _ h
      exact ⟨hnd, hs⟩

/-- C8: across the whole of `open_fds` — the probabilistic phase and the
exhaustive phase — `open()` is called at most once per provider (the call
trace has no duplicate index), and every opened provider ends settled:
initialized on success or left disabled on failure, so it is skipped by
every later pass and a failed `open()` is never retried. -/
theorem open_fds_opens_once (fuel : Nat) (coin openRes : Nat → Bool)
    (st : FdState) :
    ∀ st' tr, open_fds fuel coin openRes st = some (st', tr) →
      tr.Nodup ∧ ∀ i ∈ tr, settled st'.providers i := by
  intro st' tr h
  unfold open_fds at h
  rcases hloop : open_fds_loop coin openRes fuel 0 st [] with - | ⟨st1, c1, tr1⟩
  · rw [hloop] at h
    cases h
  · rw [hloop] at h
    have h1 := open_fds_loop_once coin openRes fuel 0 st [] (st1, c1, tr1) hloop
      List.nodup_nil (by simp)
    have h2 := pass_once_step false coin openRes c1 st1 tr1 h1.1 h1.2
    simp only [Option.some.injEq, Prod.mk.injEq] at h
    obtain ⟨hst, htr⟩ := h
    rw [← hst, ← htr]
    exact h2

/-- Witness for `open_fds_opens_once` at a concrete run: two providers,
both opened once, trace `[0, 1]`. -/
theorem open_fds_opens_once_witness :
    ([0, 1] : List Nat).Nodup ∧
    settled [⟨"A", true, true⟩, ⟨"B", true, true⟩] 0 := by
  have h := open_fds_opens_once 1 (fun _ => false) (fun _ => true)
    { providers := [⟨"A", true, false⟩, ⟨"B", true, false⟩]
    , num_fd_providers := 2, num_fd_providers_to_enable := 0
    , num_fd_providers_enabled := 0, num_fd_providers_initialized := 0 }
    { providers := [⟨"A", true, true⟩, ⟨"B", true, true⟩]
    , num_fd_providers := 2, num_fd_providers_to_enable := 0
    , num_fd_providers_enabled := 2, num_fd_providers_initialized := 2 }
    [0, 1] (by decide)
  exact ⟨h.1, h.2 0 (by simp)⟩

/-- The registry state a parameter-processing call leaves behind, whether
it returned normally or exited. -/
def resState : ParamResult → FdState
  | ParamResult.ok st => st
  | ParamResult.exited _ st => st

/-- One registry-mutating operation of a process lifetime: registration of
a declared provider table, one `--enable-fds=`/`--disable-fds=` parameter,
or one `__open_fds` pass (both phases of `open_fds` are sequences of such
passes). -/
inductive FdOp where
  | setup : List (String × Bool) → FdOp
  | param : String → Bool → FdOp
  | pass : Bool → (Nat → Bool) → (Nat → Bool) → Nat → FdOp

/-- Apply one operation to the registry state. -/
def runOp (st : FdState) : FdOp → FdState
  | FdOp.setup ds => setup_fd_providers ds st
  | FdOp.param s e => resState (process_fds_param s e st)
  | FdOp.pass d coin openRes c => (__open_fds d coin openRes c st).1

/-- The registry state after a sequence of operations from program start. -/
def runOps (ops : List FdOp) : FdState :=
  ops.foldl runOp initialFdState

/-- Function `enable_fds_param` touches neither the enabled counter nor the
initialized counter (it counts into `num_fd_providers_to_enable`). -/
theorem enable_fds_param_ctrs (s : String) (st : FdState) :
    (resState (enable_fds_param s st)).num_fd_providers_enabled =
      st.num_fd_providers_enabled ∧
    (resState (enable_fds_param s st)).num_fd_providers_initialized =
      st.num_fd_providers_initialized := by
  unfold enable_fds_param
  rcases setEnabledFirst true s st.providers with - | ps <;> exact ⟨rfl, rfl⟩

/-- Function `disable_fds_param` touches neither counter. -/
theorem disable_fds_param_ctrs (s : String) (st : FdState) :
    (resState (disable_fds_param s st)).num_fd_providers_enabled =
      st.num_fd_providers_enabled ∧
    (resState (disable_fds_param s st)).num_fd_providers_initialized =
      st.num_fd_providers_initialized := by
  unfold disable_fds_param
  rcases setEnabledFirst false s st.providers with - | ps <;> exact ⟨rfl, rfl⟩

/-- Token processing touches neither counter, in either mode, whether it
returns or exits. -/
theorem applyTokens_ctrs (e : Bool) :
    ∀ (ts : List String) (st : FdState),
      (resState (applyTokens e ts st)).num_fd_providers_enabled =
        st.num_fd_providers_enabled ∧
      (resState (applyTokens e ts st)).num_fd_providers_initialized =
        st.num_fd_providers_initialized
  | [], _ => ⟨rfl, rfl⟩
  | s :: ts, st => by
    have hthis :
        (resState (if e then enable_fds_param s st else disable_fds_param s st)).num_fd_providers_enabled =
          st.num_fd_providers_enabled ∧
        (resState (if e then enable_fds_param s st else disable_fds_param s st)).num_fd_providers_initialized =
          st.num_fd_providers_initialized := by
      cases e
      · exact disable_fds_param_ctrs s st
      · exact enable_fds_param_ctrs s st
    rcases hstep : (if e then enable_fds_param s st else disable_fds_param s st)
      with st1 | ⟨c, st1⟩
    · rw [hstep] at hthis
      simp only [resState] at hthis
      have ih := applyTokens_ctrs e ts st1
      simp only [applyTokens, hstep]
      exact ⟨ih.1.trans hthis.1, ih.2.trans hthis.2⟩
    · rw [hstep] at hthis
      simp only [resState] at hthis
      simp only [applyTokens, hstep, resState]
      exact hthis

/-- Function `process_fds_param` never changes the enabled or initialized counter. -/
theorem process_fds_param_ctrs (param : String) (e : Bool) (st : FdState) :
    (resState (process_fds_param param e st)).num_fd_providers_enabled =
      st.num_fd_providers_enabled ∧
    (resState (process_fds_param param e st)).num_fd_providers_initialized =
      st.num_fd_providers_initialized := by
  unfold process_fds_param
  cases e
  · exact applyTokens_ctrs false (fdsTokens param) st
  · exact applyTokens_ctrs true (fdsTokens param)
      { st with providers := st.providers.map (fun p => { p with enabled := false }) }

/-- Registration (with any default-enabled flags) touches neither counter. -/
theorem setup_fd_providers_ctrs :
    ∀ (ds : List (String × Bool)) (st : FdState),
      (setup_fd_providers ds st).num_fd_providers_enabled =
        st.num_fd_providers_enabled ∧
      (setup_fd_providers ds st).num_fd_providers_initialized =
        st.num_fd_providers_initialized
  | [], _ => ⟨rfl, rfl⟩
  | d :: ds, st => by
    have ih := setup_fd_providers_ctrs ds (add_to_prov_list d.1 d.2 st)
    exact ⟨ih.1, ih.2⟩

/-- Every operation preserves equality of the enabled and initialized
counters: only a successful `open()` in a pass changes them, and it
increments both together. -/
theorem runOp_preserves (st : FdState) (op : FdOp)
    (h : st.num_fd_providers_enabled = st.num_fd_providers_initialized) :
    (runOp st op).num_fd_providers_enabled =
      (runOp st op).num_fd_providers_initialized := by
  cases op with
  | setup ds =>
    have hs := setup_fd_providers_ctrs ds st
    exact hs.1.trans (h.trans hs.2.symm)
  | param s e =>
    have hs := process_fds_param_ctrs s e st
    exact hs.1.trans (h.trans hs.2.symm)
  | pass d coin openRes c =>
    simp only [runOp, __open_fds]
    omega

/-- C9: at every point in a process lifetime — i.e. after any sequence of
registrations, parameter processings and `__open_fds` passes — the
currently-enabled counter equals the currently-initialized counter; and
the parameter processor never changes the enabled counter, so the counter
counts successfully opened providers, not providers whose `enabled` flag
is true. -/
theorem enabled_counter_eq_initialized_counter (ops : List FdOp) :
    (runOps ops).num_fd_providers_enabled =
      (runOps ops).num_fd_providers_initialized ∧
    ∀ (s : String) (e : Bool),
      (resState (process_fds_param s e (runOps ops))).num_fd_providers_enabled =
        (runOps ops).num_fd_providers_enabled := by
  constructor
  · suffices h : ∀ (l : List FdOp) (st : FdState),
        st.num_fd_providers_enabled = st.num_fd_providers_initialized →
        (l.foldl runOp st).num_fd_providers_enabled =
          (l.foldl runOp st).num_fd_providers_initialized from
      h ops initialFdState rfl
    intro l
    induction l with
    | nil => exact fun st h => h
    | cons op l ih => exact fun st h => ih _ (runOp_preserves st op h)
  · intro s e
    exact (process_fds_param_ctrs s e (runOps ops)).1

end Fds
